import Mathlib

/-!
Verification development for the yggdrasil public peers finder.

The Python source is embedded shallowly: Python floats become rationals,
Python ints become integers, the regular-expression searches of the ping
output become explicit leftmost-match functions over character lists, the
in-place mutation of statistics records becomes functional record update,
and an exception escaping a function becomes an Except.error result.
The polling scheduler is driven by an explicit trace of poll events, one
environment answer per loop iteration.
-/

deriving instance DecidableEq for Except

namespace YFPP

/-- Peer endpoint record (dataclass PeerData of the source). -/
structure PeerData where
  address : String
  url : String
  world_part : String
  country : String
deriving DecidableEq, Repr

/-- Ping statistics record (dataclass PeerStatistic of the source), with the
field defaults of the dataclass. Floats are modelled as rationals. -/
structure PeerStatistic where
  peer : PeerData
  packet_loss : Int := -1
  rtt_min : ℚ := 0
  rtt_avg : ℚ := 0
  rtt_max : ℚ := 0
  rtt_mdev : ℚ := 0
  error : Int := 0
deriving DecidableEq, Repr

/-- Drop an expected literal from the front of a character list, used to model
the fixed portions of the regular expressions in parse_ping_output. -/
def dropLit : List Char → List Char → Option (List Char)
  | [], l => some l
  | _ :: _, [] => none
  | p :: ps, c :: cs => if c == p then dropLit ps cs else none

/-- Require one expected character at the front of the text. -/
def dropChar (a : Char) : List Char → Option (List Char)
  | [] => none
  | c :: cs => if c == a then some cs else none

/-- Character class of the bracket expression [\d.] used by the rtt pattern. -/
def isDigitDot (c : Char) : Bool := c.isDigit || c == '.'

/-- Greedy match of one capture group \d[\d.]+ : the maximal run of digits and
dots at the head of the text, required to start with a digit and to have at
least two characters (the pattern demands one digit plus at least one more
digit or dot). Returns the group and the remaining text. -/
def grpNum (l : List Char) : Option (List Char × List Char) :=
  match l.takeWhile isDigitDot, l.dropWhile isDigitDot with
  | [], _ => none
  | c :: cs, rest =>
    if c.isDigit && !cs.isEmpty then some (c :: cs, rest) else none

/-- Attempt to match the rtt summary pattern of parse_ping_output at the head
of the text: the literal rtt min/avg/max/mdev =, four greedy groups \d[\d.]+
separated by slashes, optional whitespace, then the literal ms. Returns the
four captured groups. -/
def matchRttAt (l : List Char) :
    Option (List Char × List Char × List Char × List Char) :=
  Option.bind (dropLit "rtt min/avg/max/mdev = ".data l) fun r0 =>
  Option.bind (grpNum r0) fun p1 =>
  Option.bind (dropChar '/' p1.2) fun u1 =>
  Option.bind (grpNum u1) fun p2 =>
  Option.bind (dropChar '/' p2.2) fun u2 =>
  Option.bind (grpNum u2) fun p3 =>
  Option.bind (dropChar '/' p3.2) fun u3 =>
  Option.bind (grpNum u3) fun p4 =>
  Option.bind (dropLit "ms".data (p4.2.dropWhile Char.isWhitespace)) fun _ =>
  some (p1.1, p2.1, p3.1, p4.1)

/-- Attempt to match the packet loss pattern at the head of the text: a greedy
nonempty digit group followed by the literal percent packet loss. -/
def matchLossAt (l : List Char) : Option (List Char) :=
  match l.takeWhile Char.isDigit, l.dropWhile Char.isDigit with
  | [], _ => none
  | c :: cs, rest =>
    match dropLit "% packet loss".data rest with
    | some _ => some (c :: cs)
    | none => none

/-- Leftmost-match search: re.search attempts the pattern at every start
position from the left and returns the first success. -/
def searchWith (f : List Char → Option β) : List Char → Option β
  | [] => f []
  | c :: cs =>
    match f (c :: cs) with
    | some g => some g
    | none => searchWith f cs

/-- Search for the rtt summary pattern anywhere in the text. -/
def searchRtt (l : List Char) :
    Option (List Char × List Char × List Char × List Char) :=
  searchWith matchRttAt l

/-- Search for the packet loss pattern anywhere in the text. -/
def searchLoss (l : List Char) : Option (List Char) :=
  searchWith matchLossAt l

/-- Numeric value of a string of decimal digits (Python int on the captured
loss group). -/
def natOfDigits (l : List Char) : Nat :=
  l.foldl (fun a c => 10 * a + (c.toNat - 48)) 0

/-- Numeric value of a decimal string made of digits and at most one dot: the
digits read as an integer, divided by ten to the length of the part after the
dot (stated with mkRat so that the value is kernel-computable). -/
def decimalValue (l : List Char) : ℚ :=
  mkRat (natOfDigits (l.filter (fun c => c != '.')))
    (10 ^ ((l.dropWhile (fun c => c != '.')).drop 1).length)

/-- Python float applied to a captured rtt group. The group is a string of
digits and dots starting with a digit; float succeeds exactly when it holds at
most one dot, and raises ValueError otherwise, modelled as none. -/
def pyFloat? (l : List Char) : Option ℚ :=
  if l.count '.' ≤ 1 then some (decimalValue l) else none

/-- PeerStatistic.parse_ping_output. The in-place mutation is modelled by
returning the updated record. When both searches fail the error field is set
to the sentinel -1 and nothing else changes; when both succeed the four rtt
fields and the loss field are assigned; a ValueError escaping from float (a
captured group with two or more dots) is modelled as Except.error. -/
def parse_ping_output (st : PeerStatistic) (ping_output : String) :
    Except Unit PeerStatistic :=
  match searchRtt ping_output.data, searchLoss ping_output.data with
  | some (g1, g2, g3, g4), some gl =>
    match pyFloat? g1, pyFloat? g2, pyFloat? g3, pyFloat? g4 with
    | some v1, some v2, some v3, some v4 =>
      Except.ok { st with rtt_min := v1, rtt_avg := v2, rtt_max := v3,
                          rtt_mdev := v4, packet_loss := (natOfDigits gl : Int) }
    | _, _, _, _ => Except.error ()
  | _, _ => Except.ok { st with error := -1 }

/-- A blank statistics record (used as the out-of-range default when the
scheduler model reads its statistics list). -/
def blankStat : PeerStatistic :=
  { peer := { address := "", url := "", world_part := "", country := "" } }

/-- A well-formed decimal group as the rtt pattern captures it: a digit
followed by at least one more digit or dot, everything a digit or a dot, and
at most one dot (so that float accepts it). -/
def goodNum : List Char → Bool
  | [] => false
  | c :: cs => c.isDigit && !cs.isEmpty && (c :: cs).all isDigitDot
      && decide ((c :: cs).count '.' ≤ 1)

/-- A non-empty string of decimal digits (the loss group). -/
def allDigits (l : List Char) : Bool := !l.isEmpty && l.all Char.isDigit

/-- The canonical rtt summary line with numbers a, b, c, d, followed by
arbitrary text tail. States the line shape the specification calls the
canonical summary pattern; it may sit anywhere in the probe output. -/
def rttFragment (a b c d tail : List Char) : List Char :=
  "rtt min/avg/max/mdev = ".data
    ++ (a ++ ('/' :: (b ++ ('/' :: (c ++ ('/' :: (d ++ (' ' :: 'm' :: 's' :: tail))))))))

/-- The packet-loss fragment with digit group lossd, followed by arbitrary
text tail; it may sit anywhere in the probe output, before or after the rtt
summary line (real ping output places it before). -/
def lossFragment (lossd tail : List Char) : List Char :=
  lossd ++ ("% packet loss".data ++ tail)

/-- Configuration dataclass Settings of the source, with its defaults. -/
structure Settings where
  force : Bool := false
  quiet : Bool := false
  verbose : Bool := false
  parallel : Int := 0
  pings : Int := 0
  best_count : Int := 0
  max_from_country : Int := 0
  ping_interval : ℚ := 0
  rewrite_config_peers : Bool := false
  yggdrasil_peers_json : String := ""
  yggdrasil_conf : String := ""
  repo_url : String := "https://github.com/yggdrasil-network/public-peers"
deriving DecidableEq, Repr

/-- State of the polling loop of ping_peers: the statistics list (one record
per input candidate; the aliasing of the Python records is modelled by
indices into this list), the ping_waiting list and the processing list. -/
structure SchedState where
  stats : List PeerStatistic
  waiting : List Nat
  processing : List Nat
deriving Repr

/-- Initial loop state of ping_peers: a fresh PeerStatistic per peer, the
waiting list a copy of the whole statistics list, nothing processing. -/
def initSched (peers : List PeerData) : SchedState :=
  { stats := peers.map (fun p => { peer := p }),
    waiting := List.range peers.length,
    processing := [] }

/-- Launch phase of one loop iteration: when len(processing) is below
settings.parallel and ping_waiting is non-empty, pop the last waiting entry
(Python list.pop takes the last element) and append it to processing. -/
def launchStep (settings : Settings) (st : SchedState) : SchedState :=
  if (st.processing.length : Int) < settings.parallel ∧ st.waiting ≠ [] then
    { st with waiting := st.waiting.dropLast,
              processing := st.processing ++ [st.waiting.getLast?.getD 0] }
  else st

/-- Poll phase of one loop iteration, walking the processing list in order.
The environment answer pass gives, per candidate index, none when its ping
process is still running and some (code, out) when it exited with status code
and standard output out. Still-running entries are kept, a nonzero status is
recorded in the error field, a zero status has its output parsed; an escaping
ValueError aborts the whole call. -/
def pollList (pass : Nat → Option (Int × String)) :
    List Nat → List PeerStatistic → Except Unit (List PeerStatistic × List Nat)
  | [], stats => Except.ok (stats, [])
  | idx :: rest, stats =>
    match pass idx with
    | none =>
      match pollList pass rest stats with
      | Except.ok (s, pr) => Except.ok (s, idx :: pr)
      | Except.error e => Except.error e
    | some (code, out) =>
      if code ≠ 0 then
        pollList pass rest (stats.set idx { stats.getD idx blankStat with error := code })
      else
        match parse_ping_output (stats.getD idx blankStat) out with
        | Except.ok st2 => pollList pass rest (stats.set idx st2)
        | Except.error e => Except.error e

/-- One iteration of the while loop of ping_peers: launch phase, sleep
(irrelevant to the state), then poll phase. -/
def stepIter (settings : Settings) (st : SchedState)
    (pass : Nat → Option (Int × String)) : Except Unit SchedState :=
  match pollList pass (launchStep settings st).processing (launchStep settings st).stats with
  | Except.ok (stats2, proc2) =>
    Except.ok { stats := stats2, waiting := (launchStep settings st).waiting,
                processing := proc2 }
  | Except.error e => Except.error e

/-- The polling loop of ping_peers, driven by a trace of environment answers,
one per iteration. -/
def runSched (settings : Settings) :
    SchedState → List (Nat → Option (Int × String)) → Except Unit SchedState
  | st, [] => Except.ok st
  | st, pass :: trace =>
    match stepIter settings st pass with
    | Except.ok st2 => runSched settings st2 trace
    | Except.error e => Except.error e

/-- Exit condition of the while loop of ping_peers: the loop stops exactly
when both ping_waiting and processing are empty; the function then returns
the statistics list. -/
def loopDone (st : SchedState) : Bool := st.waiting.isEmpty && st.processing.isEmpty

/-- PeerStatistic.ping_success. -/
def ping_success (st : PeerStatistic) : Bool := st.error == 0

/-- Stable insertion of a statistics record into an already sorted list: the
record is placed before the first element it is not strictly greater than, so
equal rtt_avg keys keep input order. -/
def orderedInsert (x : PeerStatistic) : List PeerStatistic → List PeerStatistic
  | [] => [x]
  | y :: ys => if x.rtt_avg ≤ y.rtt_avg then x :: y :: ys else y :: orderedInsert x ys

/-- The sort step successful_peers.sort() of best_peers: Python list.sort is a
stable ascending sort under the dataclass less-than, which compares rtt_avg;
its result is specified (uniquely) by stable insertion sorting. -/
def sortStats (l : List PeerStatistic) : List PeerStatistic := l.foldr orderedInsert []

/-- Update of the countries dict of best_peers (a finite map modelled as a
function to Option). -/
def dictSet (d : String → Option Nat) (k : String) (v : Nat) : String → Option Nat :=
  fun q => if q = k then some v else d q

/-- Country-capped selection walk of best_peers (the max_from_country > 0
branch): skip a peer whose country count has reached the cap, otherwise
select it, and break when the selected list has reached best; the break test
runs after the append. The argument n is the current length of the selected
list. -/
def country_walk (maxC best : Int) :
    List PeerStatistic → (String → Option Nat) → Int → List PeerStatistic
  | [], _, _ => []
  | p :: rest, counts, n =>
    match counts p.peer.country with
    | some k =>
      if maxC ≤ (k : Int) then country_walk maxC best rest counts n
      else
        p :: (if best ≤ n + 1 then []
              else country_walk maxC best rest (dictSet counts p.peer.country (k + 1)) (n + 1))
    | none =>
      p :: (if best ≤ n + 1 then []
            else country_walk maxC best rest (dictSet counts p.peer.country 1) (n + 1))

/-- The same capped walk without the stop condition: it selects exactly the
successes not skipped by the per-country cap, the quantity the specification
uses to state the output size of the selection engine. -/
def capFilter (maxC : Int) :
    List PeerStatistic → (String → Option Nat) → List PeerStatistic
  | [], _ => []
  | p :: rest, counts =>
    match counts p.peer.country with
    | some k =>
      if maxC ≤ (k : Int) then capFilter maxC rest counts
      else p :: capFilter maxC rest (dictSet counts p.peer.country (k + 1))
    | none => p :: capFilter maxC rest (dictSet counts p.peer.country 1)

/-- Python slice successful_peers[:best]: the first best elements when best is
nonnegative, and all but the last -best elements (clamped at zero) when best
is negative. -/
def pySlice (l : List PeerStatistic) (k : Int) : List PeerStatistic :=
  if k < 0 then l.take ((l.length : Int) + k).toNat else l.take k.toNat

/-- Body of best_peers after the success filter: sort ascending by rtt_avg,
then either the plain slice of the first best entries or the country-capped
walk, and strip the statistics, keeping the peers. -/
def best_peers_of_successful (successful : List PeerStatistic) (best maxC : Int) :
    List PeerData :=
  (if maxC ≤ 0 then pySlice (sortStats successful) best
   else country_walk maxC best (sortStats successful) (fun _ => none) 0).map
    (fun s => s.peer)

/-- best_peers of the source: filter the successful pings, then select. -/
def best_peers (ping_statistics : List PeerStatistic) (best maxC : Int) :
    List PeerData :=
  best_peers_of_successful (ping_statistics.filter ping_success) best maxC

/-- Command line arguments relevant to validate_settings (argparse Namespace
of get_arguments). -/
structure ArgsModel where
  force : Bool
  quiet : Bool
  verbose : Bool
  parallel : Int
  pings : Int
  best : Int
  max_from_country : Int
  ping_interval : ℚ
  rewrite_config_peers : Bool
  yggdrasil_peers_json : String
  yggdrasil_conf : String
  repo_url : String
deriving DecidableEq, Repr

/-- validate_settings of the source. Besides building the Settings record (a
plain field copy, not modelled), it checks only that the configuration file is
writable when one is named and force is off; writability of a path is an
environment oracle. It performs no range check of any scalar setting. -/
def validate_settings (args : ArgsModel) (writable : String → Bool) : Bool :=
  if args.yggdrasil_conf ≠ "" ∧ args.force = false then
    if writable args.yggdrasil_conf = false then false else true
  else true

/-- Loop invariant of ping_peers: the statistics list always projects back to
the input peers in order, processing and waiting never hold more entries
together than there are peers, processing respects the concurrency ceiling,
and the waiting list is always an initial segment of the candidate indices
(so that its last element is the greatest not-yet-launched index). -/
def SchedInv (peers : List PeerData) (P : Int) (st : SchedState) : Prop :=
  st.stats.map (fun s => s.peer) = peers ∧
  st.processing.length + st.waiting.length ≤ peers.length ∧
  (st.processing.length : Int) ≤ P ∧
  st.waiting = List.range st.waiting.length

/-- Pointwise agreement of two statistics records on every field except
packet_loss. -/
def eqExceptLoss (a b : PeerStatistic) : Prop :=
  a.peer = b.peer ∧ a.rtt_min = b.rtt_min ∧ a.rtt_avg = b.rtt_avg ∧
  a.rtt_max = b.rtt_max ∧ a.rtt_mdev = b.rtt_mdev ∧ a.error = b.error

theorem map_peer_set (l : List PeerStatistic) (i : Nat) (v : PeerStatistic)
    (h : v.peer = (l.getD i blankStat).peer) :
    (l.set i v).map (fun s => s.peer) = l.map (fun s => s.peer) := by
  induction l generalizing i with
  | nil => simp
  | cons x xs ih =>
    cases i with
    | zero =>
      simp only [List.getD_cons_zero] at h
      simp [h]
    | succ n =>
      simp only [List.getD_cons_succ] at h
      simp [ih n h]

theorem parse_ping_output_ok_peer (st : PeerStatistic) (out : String) (st2 : PeerStatistic)
    (h : parse_ping_output st out = Except.ok st2) : st2.peer = st.peer := by
  unfold parse_ping_output at h
  split at h
  · split at h
    · injection h with h2
      subst h2
      rfl
    · simp at h
  · injection h with h2
    subst h2
    rfl

theorem pollList_ok_spec (pass : Nat → Option (Int × String)) :
    ∀ (pr : List Nat) (stats s2 : List PeerStatistic) (pr2 : List Nat),
      pollList pass pr stats = Except.ok (s2, pr2) →
      s2.length = stats.length ∧ pr2.length ≤ pr.length ∧
        s2.map (fun s => s.peer) = stats.map (fun s => s.peer) := by
  intro pr
  induction pr with
  | nil =>
    intro stats s2 pr2 h
    simp only [pollList, Except.ok.injEq, Prod.mk.injEq] at h
    obtain ⟨rfl, rfl⟩ := h
    exact ⟨rfl, by simp, rfl⟩
  | cons idx rest ih =>
    intro stats s2 pr2 h
    simp only [pollList] at h
    split at h
    · split at h
      · rename_i s pr hrec
        simp only [Except.ok.injEq, Prod.mk.injEq] at h
        obtain ⟨rfl, rfl⟩ := h
        obtain ⟨h1, h2, h3⟩ := ih stats s pr hrec
        exact ⟨h1, by simpa using Nat.succ_le_succ h2, h3⟩
      · simp at h
    · rename_i code out
      split at h
      · obtain ⟨h1, h2, h3⟩ := ih _ s2 pr2 h
        refine ⟨by rw [h1, List.length_set], le_trans h2 (Nat.le_succ _), ?_⟩
        rw [h3, map_peer_set]
        rfl
      · split at h
        · rename_i stNew hps
          obtain ⟨h1, h2, h3⟩ := ih _ s2 pr2 h
          refine ⟨by rw [h1, List.length_set], le_trans h2 (Nat.le_succ _), ?_⟩
          rw [h3, map_peer_set]
          exact parse_ping_output_ok_peer _ _ _ hps
        · simp at h

theorem range_dropLast (n : Nat) : (List.range n).dropLast = List.range (n - 1) := by
  cases n with
  | zero => rfl
  | succ m => rw [List.range_succ, List.dropLast_concat]; simp

theorem initSched_inv (peers : List PeerData) (P : Int) (hP : 0 ≤ P) :
    SchedInv peers P (initSched peers) := by
  refine ⟨?_, ?_, ?_, ?_⟩
  · simp [initSched, List.map_map, Function.comp_def]
  · simp [initSched]
  · simpa [initSched] using hP
  · simp [initSched]

theorem launchStep_inv (peers : List PeerData) (settings : Settings) (st : SchedState)
    (h : SchedInv peers settings.parallel st) :
    SchedInv peers settings.parallel (launchStep settings st) := by
  obtain ⟨h1, h2, h3, h4⟩ := h
  unfold launchStep
  split
  · rename_i hcond
    obtain ⟨hlt, hne⟩ := hcond
    have hw1 : 1 ≤ st.waiting.length := by
      cases hwe : st.waiting with
      | nil => exact absurd hwe hne
      | cons a l => simp [hwe]
    refine ⟨h1, ?_, ?_, ?_⟩
    · simp only [List.length_append, List.length_dropLast, List.length_cons,
        List.length_nil]
      omega
    · simp only [List.length_append, List.length_cons, List.length_nil]
      push_cast
      omega
    · have hw : st.waiting.dropLast = List.range (st.waiting.length - 1) := by
        conv_lhs => rw [h4]
        exact range_dropLast _
      rw [hw, List.length_range]
  · exact ⟨h1, h2, h3, h4⟩

theorem stepIter_inv (peers : List PeerData) (settings : Settings)
    (pass : Nat → Option (Int × String)) (st st2 : SchedState)
    (hstep : stepIter settings st pass = Except.ok st2)
    (h : SchedInv peers settings.parallel st) :
    SchedInv peers settings.parallel st2 := by
  have hL := launchStep_inv peers settings st h
  unfold stepIter at hstep
  cases hpoll : pollList pass (launchStep settings st).processing (launchStep settings st).stats with
  | error e => rw [hpoll] at hstep; simp at hstep
  | ok val =>
    obtain ⟨s2, pr2⟩ := val
    rw [hpoll] at hstep
    simp only [Except.ok.injEq] at hstep
    subst hstep
    obtain ⟨g1, g2, g3⟩ := pollList_ok_spec pass _ _ _ _ hpoll
    obtain ⟨i1, i2, i3, i4⟩ := hL
    refine ⟨by rw [g3, i1], by simp only []; omega, ?_, i4⟩
    calc ((pr2.length : Int)) ≤ ((launchStep settings st).processing.length : Int) := by
          exact_mod_cast g2
      _ ≤ settings.parallel := i3

theorem runSched_inv (peers : List PeerData) (settings : Settings) :
    ∀ (trace : List (Nat → Option (Int × String))) (st0 st : SchedState),
      SchedInv peers settings.parallel st0 →
      runSched settings st0 trace = Except.ok st →
      SchedInv peers settings.parallel st := by
  intro trace
  induction trace with
  | nil =>
    intro st0 st h hrun
    simp only [runSched, Except.ok.injEq] at hrun
    subst hrun
    exact h
  | cons pass rest ih =>
    intro st0 st h hrun
    simp only [runSched] at hrun
    cases hstep : stepIter settings st0 pass with
    | error e => rw [hstep] at hrun; simp at hrun
    | ok st1 =>
      rw [hstep] at hrun
      exact ih st1 st (stepIter_inv peers settings pass st0 st1 hstep h) hrun

/-- C2. Along every run of the polling loop of ping_peers with concurrency at
least 1, the processing set never exceeds min(parallel, number of candidates),
neither between iterations nor at the peak right after a launch, and the
statistics list the loop returns always has exactly one record per input
candidate, in input order (a bijection with the candidate list). -/
theorem scheduler_concurrency_bound_and_output (peers : List PeerData)
    (settings : Settings) (trace : List (Nat → Option (Int × String)))
    (st : SchedState) (hP : 1 ≤ settings.parallel)
    (hrun : runSched settings (initSched peers) trace = Except.ok st) :
    (st.processing.length : Int) ≤ min settings.parallel (peers.length : Int) ∧
    ((launchStep settings st).processing.length : Int)
      ≤ min settings.parallel (peers.length : Int) ∧
    st.stats.length = peers.length ∧
    st.stats.map (fun s => s.peer) = peers := by
  obtain ⟨h1, h2, h3, h4⟩ :=
    runSched_inv peers settings trace (initSched peers) st
      (initSched_inv peers settings.parallel (by omega)) hrun
  have hlen : st.stats.length = peers.length := by
    rw [← h1, List.length_map]
  have hb : (st.processing.length : Int) ≤ min settings.parallel (peers.length : Int) := by
    refine le_min h3 ?_
    exact_mod_cast le_trans (Nat.le_add_right _ _) h2
  refine ⟨hb, ?_, hlen, h1⟩
  unfold launchStep
  split
  · rename_i hcond
    obtain ⟨hlt, hne⟩ := hcond
    have hw1 : 1 ≤ st.waiting.length := by
      cases hwe : st.waiting with
      | nil => exact absurd hwe hne
      | cons a l => simp [hwe]
    simp only [List.length_append, List.length_cons, List.length_nil]
    refine le_min ?_ ?_
    · push_cast
      omega
    · have : st.processing.length + 1 ≤ peers.length := by omega
      exact_mod_cast this
  · exact hb

/-- C2, witness. -/
theorem scheduler_concurrency_bound_and_output_witness :
    ((((initSched [{ address := "w2", url := "", world_part := "", country := "" }]).processing.length : Int)
        ≤ min (1 : Int) 1) ∧
     (((launchStep { parallel := 1 } (initSched [{ address := "w2", url := "", world_part := "", country := "" }])).processing.length : Int)
        ≤ min (1 : Int) 1) ∧
     (initSched [{ address := "w2", url := "", world_part := "", country := "" }]).stats.length = 1 ∧
     (initSched [{ address := "w2", url := "", world_part := "", country := "" }]).stats.map (fun s => s.peer)
        = [{ address := "w2", url := "", world_part := "", country := "" }]) := by
  have h := scheduler_concurrency_bound_and_output
    [{ address := "w2", url := "", world_part := "", country := "" }]
    { parallel := 1 } []
    (initSched [{ address := "w2", url := "", world_part := "", country := "" }])
    (by decide) (by rfl)
  simpa using h

/-- C10. When the concurrency setting parallel is not positive and the
candidate list is non-empty, the loop of ping_peers never changes its state:
no probe is ever launched (processing stays empty), and since the waiting
list stays non-empty the while condition never becomes false, so the loop
never terminates. -/
theorem scheduler_stuck_when_parallel_nonpositive (peers : List PeerData)
    (settings : Settings) (trace : List (Nat → Option (Int × String)))
    (hP : settings.parallel ≤ 0) (hne : peers ≠ []) :
    runSched settings (initSched peers) trace = Except.ok (initSched peers) ∧
    (initSched peers).processing = [] ∧
    loopDone (initSched peers) = false := by
  have hstuck : ∀ (st : SchedState) (pass : Nat → Option (Int × String)),
      st.processing = [] → stepIter settings st pass = Except.ok st := by
    intro st pass hproc
    have hl : launchStep settings st = st := by
      unfold launchStep
      split
      · rename_i hcond
        exfalso
        rw [hproc] at hcond
        have : (0 : Int) < settings.parallel := by simpa using hcond.1
        omega
      · rfl
    unfold stepIter
    rw [hl, hproc]
    simp only [pollList]
    cases st
    simp_all
  have hrun : ∀ (t : List (Nat → Option (Int × String))),
      runSched settings (initSched peers) t = Except.ok (initSched peers) := by
    intro t
    induction t with
    | nil => rfl
    | cons pass rest ih =>
      simp only [runSched, hstuck (initSched peers) pass rfl]
      exact ih
  refine ⟨hrun trace, rfl, ?_⟩
  unfold loopDone initSched
  have : peers.length ≠ 0 := by
    intro h0
    exact hne (List.eq_nil_of_length_eq_zero h0)
  simp [List.isEmpty_iff, List.range_eq_nil, this]

/-- C10, witness. -/
theorem scheduler_stuck_when_parallel_nonpositive_witness :
    runSched { parallel := 0 }
        (initSched [{ address := "w10", url := "", world_part := "", country := "" }])
        [fun _ => none]
      = Except.ok (initSched [{ address := "w10", url := "", world_part := "", country := "" }]) ∧
    (initSched [{ address := "w10", url := "", world_part := "", country := "" }]).processing = [] ∧
    loopDone (initSched [{ address := "w10", url := "", world_part := "", country := "" }]) = false :=
  scheduler_stuck_when_parallel_nonpositive
    [{ address := "w10", url := "", world_part := "", country := "" }]
    { parallel := 0 } [fun _ => none] (by decide) (by decide)

/-- C5, amended. The waiting list of ping_peers is always an initial segment
of the candidate index sequence, and whenever the launch condition holds the
launched candidate is the one popped from the END of the waiting list, which
is its greatest element: the scheduler consumes the waiting queue in reverse
candidate-list order (LIFO), launching the LATEST not-yet-launched candidate. -/
theorem scheduler_launch_lifo (peers : List PeerData) (settings : Settings)
    (trace : List (Nat → Option (Int × String))) (st : SchedState)
    (hP : 0 ≤ settings.parallel)
    (hrun : runSched settings (initSched peers) trace = Except.ok st)
    (hlt : (st.processing.length : Int) < settings.parallel)
    (hne : st.waiting ≠ []) :
    st.waiting = List.range st.waiting.length ∧
    (launchStep settings st).processing
      = st.processing ++ [st.waiting.length - 1] ∧
    ∀ j ∈ st.waiting, j ≤ st.waiting.length - 1 := by
  obtain ⟨h1, h2, h3, h4⟩ :=
    runSched_inv peers settings trace (initSched peers) st
      (initSched_inv peers settings.parallel hP) hrun
  have hw1 : 1 ≤ st.waiting.length := by
    cases hwe : st.waiting with
    | nil => exact absurd hwe hne
    | cons a l => simp [hwe]
  have hlast : st.waiting.getLast?.getD 0 = st.waiting.length - 1 := by
    conv_lhs => rw [h4]
    have : st.waiting.length = (st.waiting.length - 1) + 1 := by omega
    rw [this, List.range_succ, List.getLast?_concat]
    rfl
  refine ⟨h4, ?_, ?_⟩
  · unfold launchStep
    rw [if_pos ⟨hlt, hne⟩, hlast]
  · intro j hj
    rw [h4] at hj
    have := List.mem_range.mp hj
    omega

/-- C5, amended, witness. -/
theorem scheduler_launch_lifo_witness :
    (initSched [{ address := "v0", url := "", world_part := "", country := "" },
                { address := "v1", url := "", world_part := "", country := "" }]).waiting
      = List.range (initSched [{ address := "v0", url := "", world_part := "", country := "" },
                { address := "v1", url := "", world_part := "", country := "" }]).waiting.length ∧
    (launchStep { parallel := 1 }
        (initSched [{ address := "v0", url := "", world_part := "", country := "" },
                    { address := "v1", url := "", world_part := "", country := "" }])).processing
      = (initSched [{ address := "v0", url := "", world_part := "", country := "" },
                    { address := "v1", url := "", world_part := "", country := "" }]).processing
          ++ [(initSched [{ address := "v0", url := "", world_part := "", country := "" },
                    { address := "v1", url := "", world_part := "", country := "" }]).waiting.length - 1] ∧
    ∀ j ∈ (initSched [{ address := "v0", url := "", world_part := "", country := "" },
                    { address := "v1", url := "", world_part := "", country := "" }]).waiting,
      j ≤ (initSched [{ address := "v0", url := "", world_part := "", country := "" },
                    { address := "v1", url := "", world_part := "", country := "" }]).waiting.length - 1 :=
  scheduler_launch_lifo
    [{ address := "v0", url := "", world_part := "", country := "" },
     { address := "v1", url := "", world_part := "", country := "" }]
    { parallel := 1 } []
    (initSched [{ address := "v0", url := "", world_part := "", country := "" },
                { address := "v1", url := "", world_part := "", country := "" }])
    (by decide) (by rfl) (by decide) (by decide)

theorem walk_countP (maxC best : Int) (loc : String) (hc : 1 ≤ maxC) :
    ∀ (l : List PeerStatistic) (counts : String → Option Nat) (n : Int),
      (country_walk maxC best l counts n).countP (fun s => s.peer.country == loc)
        ≤ maxC.toNat - ((counts loc).getD 0) := by
  intro l
  induction l with
  | nil => intro counts n; simp [country_walk]
  | cons p rest ih =>
    intro counts n
    simp only [country_walk]
    split
    · rename_i k hk
      split
      · exact ih counts n
      · rename_i hskip
        rw [List.countP_cons]
        by_cases hploc : p.peer.country = loc
        · have hkl : (counts loc).getD 0 = k := by rw [← hploc, hk]; rfl
          have hklt : (k : Int) < maxC := by omega
          by_cases hstop : best ≤ n + 1
          · rw [if_pos hstop]
            simp only [List.countP_nil, hploc, beq_self_eq_true, if_pos, hkl]
            omega
          · rw [if_neg hstop]
            have hrec := ih (dictSet counts p.peer.country (k + 1)) (n + 1)
            have hdl : ((dictSet counts p.peer.country (k + 1) loc).getD 0) = k + 1 := by
              simp [dictSet, hploc]
            rw [hdl] at hrec
            rw [hploc] at hrec
            simp only [hploc, beq_self_eq_true, if_pos, hkl]
            omega
        · have hpb : (p.peer.country == loc) = false := by simp [hploc]
          rw [hpb]
          simp only [Bool.false_eq_true, if_false, Nat.add_zero]
          by_cases hstop : best ≤ n + 1
          · rw [if_pos hstop]
            simp
          · rw [if_neg hstop]
            have hrec := ih (dictSet counts p.peer.country (k + 1)) (n + 1)
            have hlc : ¬ (loc = p.peer.country) := fun h => hploc h.symm
            have hdl : dictSet counts p.peer.country (k + 1) loc = counts loc := by
              simp [dictSet, hlc]
            rw [hdl] at hrec
            omega
    · rename_i hk
      rw [List.countP_cons]
      by_cases hploc : p.peer.country = loc
      · have hkl : (counts loc).getD 0 = 0 := by rw [← hploc, hk]; rfl
        by_cases hstop : best ≤ n + 1
        · rw [if_pos hstop]
          simp only [List.countP_nil, hploc, beq_self_eq_true, if_pos, hkl]
          omega
        · rw [if_neg hstop]
          have hrec := ih (dictSet counts p.peer.country 1) (n + 1)
          have hdl : ((dictSet counts p.peer.country 1 loc).getD 0) = 1 := by
            simp [dictSet, hploc]
          rw [hdl] at hrec
          rw [hploc] at hrec
          simp only [hploc, beq_self_eq_true, if_pos, hkl]
          omega
      · have hpb : (p.peer.country == loc) = false := by simp [hploc]
        rw [hpb]
        simp only [Bool.false_eq_true, if_false, Nat.add_zero]
        by_cases hstop : best ≤ n + 1
        · rw [if_pos hstop]
          simp
        · rw [if_neg hstop]
          have hrec := ih (dictSet counts p.peer.country 1) (n + 1)
          have hlc : ¬ (loc = p.peer.country) := fun h => hploc h.symm
          have hdl : dictSet counts p.peer.country 1 loc = counts loc := by
            simp [dictSet, hlc]
          rw [hdl] at hrec
          omega

theorem walk_length (maxC best : Int) :
    ∀ (l : List PeerStatistic) (counts : String → Option Nat) (n : Int),
      n < best →
      (country_walk maxC best l counts n).length
        = min (best - n).toNat (capFilter maxC l counts).length := by
  intro l
  induction l with
  | nil =>
    intro counts n hn
    simp [country_walk, capFilter]
  | cons p rest ih =>
    intro counts n hn
    simp only [country_walk, capFilter]
    split
    · rename_i k hk
      split
      · exact ih counts n hn
      · by_cases hstop : best ≤ n + 1
        · rw [if_pos hstop]
          simp only [List.length_cons, List.length_nil]
          omega
        · rw [if_neg hstop]
          simp only [List.length_cons]
          rw [ih (dictSet counts p.peer.country (k + 1)) (n + 1) (by omega)]
          omega
    · by_cases hstop : best ≤ n + 1
      · rw [if_pos hstop]
        simp only [List.length_cons, List.length_nil]
        omega
      · rw [if_neg hstop]
        simp only [List.length_cons]
        rw [ih (dictSet counts p.peer.country 1) (n + 1) (by omega)]
        omega

/-- C3, amended. For every statistics list, every target count N at least 1
(the original N greater or equal 0 fails at N = 0, where the post-append break
returns one peer) and every per-locality cap C at least 1, the selection walk
of best_peers gives no country more than C selections, and the output length
is exactly min(N, number of successes the cap does not skip), the latter
measured by the same walk without the stop condition. -/
theorem best_peers_cap_and_size (stats : List PeerStatistic) (best maxC : Int)
    (loc : String) (hb : 1 ≤ best) (hc : 1 ≤ maxC) :
    (best_peers stats best maxC).countP (fun p => p.country == loc) ≤ maxC.toNat ∧
    (best_peers stats best maxC).length
      = min best.toNat
          (capFilter maxC (sortStats (stats.filter ping_success)) (fun _ => none)).length := by
  unfold best_peers best_peers_of_successful
  rw [if_neg (by omega : ¬ maxC ≤ 0)]
  constructor
  · rw [List.countP_map]
    have h := walk_countP maxC best loc hc
      (sortStats (stats.filter ping_success)) (fun _ => none) 0
    simpa [Function.comp_def] using h
  · rw [List.length_map]
    have h := walk_length maxC best
      (sortStats (stats.filter ping_success)) (fun _ => none) 0 (by omega)
    simpa using h

/-- C3, amended, witness: the specification scenario, three peers with
averages 50, 10, 30, countries A, A, B, target 2, cap 1. -/
theorem best_peers_cap_and_size_witness :
    (best_peers
        [{ peer := { address := "10.0.0.1", url := "", world_part := "", country := "A" }, rtt_avg := 50 },
         { peer := { address := "10.0.0.2", url := "", world_part := "", country := "A" }, rtt_avg := 10 },
         { peer := { address := "10.0.0.3", url := "", world_part := "", country := "B" }, rtt_avg := 30 }]
        2 1).countP (fun p => p.country == "A") ≤ (1 : Int).toNat ∧
    (best_peers
        [{ peer := { address := "10.0.0.1", url := "", world_part := "", country := "A" }, rtt_avg := 50 },
         { peer := { address := "10.0.0.2", url := "", world_part := "", country := "A" }, rtt_avg := 10 },
         { peer := { address := "10.0.0.3", url := "", world_part := "", country := "B" }, rtt_avg := 30 }]
        2 1).length
      = min (2 : Int).toNat
          (capFilter 1
            (sortStats
              (List.filter ping_success
                [{ peer := { address := "10.0.0.1", url := "", world_part := "", country := "A" }, rtt_avg := 50 },
                 { peer := { address := "10.0.0.2", url := "", world_part := "", country := "A" }, rtt_avg := 10 },
                 { peer := { address := "10.0.0.3", url := "", world_part := "", country := "B" }, rtt_avg := 30 }]))
            (fun _ => none)).length :=
  best_peers_cap_and_size
    [{ peer := { address := "10.0.0.1", url := "", world_part := "", country := "A" }, rtt_avg := 50 },
     { peer := { address := "10.0.0.2", url := "", world_part := "", country := "A" }, rtt_avg := 10 },
     { peer := { address := "10.0.0.3", url := "", world_part := "", country := "B" }, rtt_avg := 30 }]
    2 1 "A" (by decide) (by decide)

theorem filter_avg_orderedInsert (v : ℚ) (x : PeerStatistic) (l : List PeerStatistic) :
    (orderedInsert x l).filter (fun s => s.rtt_avg == v)
      = (x :: l).filter (fun s => s.rtt_avg == v) := by
  induction l with
  | nil => rfl
  | cons y ys ih =>
    simp only [orderedInsert]
    by_cases hxy : x.rtt_avg ≤ y.rtt_avg
    · rw [if_pos hxy]
    · rw [if_neg hxy]
      by_cases hx : x.rtt_avg = v
      · have hy : ¬ (y.rtt_avg = v) := by
          intro h
          exact hxy (le_of_eq (by rw [hx, h]))
        have hyb : (y.rtt_avg == v) = false := by simp [hy]
        have hxb : (x.rtt_avg == v) = true := by simp [hx]
        simp [List.filter_cons, hyb, hxb, ih]
      · have hxb : (x.rtt_avg == v) = false := by simp [hx]
        simp [List.filter_cons, hxb, ih]

theorem filter_avg_sortStats (v : ℚ) (l : List PeerStatistic) :
    (sortStats l).filter (fun s => s.rtt_avg == v)
      = l.filter (fun s => s.rtt_avg == v) := by
  induction l with
  | nil => rfl
  | cons x xs ih =>
    show ((orderedInsert x (sortStats xs)).filter _) = _
    rw [filter_avg_orderedInsert]
    simp [List.filter_cons, ih]

/-- C7. The selection of best_peers depends only on the subsequence of
successful statistics: two inputs with identical successes in identical
relative order (the failed entries permuted arbitrarily among them) give
identical outputs for every target count and cap; and the sort is stable, so
for every value v the successes of average v stay in input order. -/
theorem selection_indifferent_to_failed_order (l1 l2 : List PeerStatistic)
    (best maxC : Int) (v : ℚ)
    (hs : l1.filter ping_success = l2.filter ping_success)
    (hperm : (l1.filter (fun s => !ping_success s)).Perm
      (l2.filter (fun s => !ping_success s))) :
    best_peers l1 best maxC = best_peers l2 best maxC ∧
    (sortStats (l1.filter ping_success)).filter (fun s => s.rtt_avg == v)
      = (l1.filter ping_success).filter (fun s => s.rtt_avg == v) := by
  refine ⟨?_, filter_avg_sortStats v _⟩
  unfold best_peers
  rw [hs]

/-- C7, witness: moving the failed entry past the success changes nothing. -/
theorem selection_indifferent_to_failed_order_witness :
    best_peers
        [{ peer := { address := "f", url := "", world_part := "", country := "x" }, error := 2 },
         { peer := { address := "s", url := "", world_part := "", country := "y" }, rtt_avg := 1 }]
        2 0
      = best_peers
        [{ peer := { address := "s", url := "", world_part := "", country := "y" }, rtt_avg := 1 },
         { peer := { address := "f", url := "", world_part := "", country := "x" }, error := 2 }]
        2 0 ∧
    (sortStats
        (List.filter ping_success
          [{ peer := { address := "f", url := "", world_part := "", country := "x" }, error := 2 },
           { peer := { address := "s", url := "", world_part := "", country := "y" }, rtt_avg := 1 }])).filter
        (fun s => s.rtt_avg == 1)
      = (List.filter ping_success
          [{ peer := { address := "f", url := "", world_part := "", country := "x" }, error := 2 },
           { peer := { address := "s", url := "", world_part := "", country := "y" }, rtt_avg := 1 }]).filter
        (fun s => s.rtt_avg == 1) :=
  selection_indifferent_to_failed_order
    [{ peer := { address := "f", url := "", world_part := "", country := "x" }, error := 2 },
     { peer := { address := "s", url := "", world_part := "", country := "y" }, rtt_avg := 1 }]
    [{ peer := { address := "s", url := "", world_part := "", country := "y" }, rtt_avg := 1 },
     { peer := { address := "f", url := "", world_part := "", country := "x" }, error := 2 }]
    2 0 1 (by decide) (by decide)

theorem forall2_filter_success {l1 l2 : List PeerStatistic}
    (h : List.Forall₂ eqExceptLoss l1 l2) :
    List.Forall₂ eqExceptLoss (l1.filter ping_success) (l2.filter ping_success) := by
  induction h with
  | nil => simpa using List.Forall₂.nil
  | @cons a b t1 t2 hab htl ih =>
    have he : ping_success b = ping_success a := by
      unfold ping_success
      rw [hab.2.2.2.2.2]
    simp only [List.filter_cons, he]
    cases hps : ping_success a with
    | true => simp only [if_pos rfl]; exact List.Forall₂.cons hab ih
    | false => simpa [hps] using ih

theorem forall2_orderedInsert {x y : PeerStatistic} (hxy : eqExceptLoss x y)
    {l1 l2 : List PeerStatistic} (h : List.Forall₂ eqExceptLoss l1 l2) :
    List.Forall₂ eqExceptLoss (orderedInsert x l1) (orderedInsert y l2) := by
  induction h with
  | nil => exact .cons hxy .nil
  | @cons a b t1 t2 hab htl ih =>
    simp only [orderedInsert]
    have hcond : (x.rtt_avg ≤ a.rtt_avg) ↔ (y.rtt_avg ≤ b.rtt_avg) := by
      rw [hxy.2.2.1, hab.2.2.1]
    by_cases hcase : x.rtt_avg ≤ a.rtt_avg
    · rw [if_pos hcase, if_pos (hcond.mp hcase)]
      exact .cons hxy (.cons hab htl)
    · rw [if_neg hcase, if_neg (fun hy => hcase (hcond.mpr hy))]
      exact .cons hab ih

theorem forall2_sortStats {l1 l2 : List PeerStatistic}
    (h : List.Forall₂ eqExceptLoss l1 l2) :
    List.Forall₂ eqExceptLoss (sortStats l1) (sortStats l2) := by
  induction h with
  | nil => exact .nil
  | cons hab htl ih => exact forall2_orderedInsert hab ih

theorem forall2_map_peer {l1 l2 : List PeerStatistic}
    (h : List.Forall₂ eqExceptLoss l1 l2) :
    l1.map (fun s => s.peer) = l2.map (fun s => s.peer) := by
  induction h with
  | nil => rfl
  | cons hab htl ih => simp [hab.1, ih]

theorem forall2_walk (maxC best : Int) {l1 l2 : List PeerStatistic}
    (h : List.Forall₂ eqExceptLoss l1 l2) :
    ∀ (counts : String → Option Nat) (n : Int),
      List.Forall₂ eqExceptLoss (country_walk maxC best l1 counts n)
        (country_walk maxC best l2 counts n) := by
  induction h with
  | nil => intro counts n; exact .nil
  | @cons a b t1 t2 hab htl ih =>
    intro counts n
    have hcountry : b.peer.country = a.peer.country := by rw [hab.1]
    simp only [country_walk, hcountry]
    cases hk : counts a.peer.country with
    | some k =>
      simp only [hk]
      by_cases hskip : maxC ≤ (k : Int)
      · simp only [if_pos hskip]
        exact ih counts n
      · simp only [if_neg hskip]
        by_cases hstop : best ≤ n + 1
        · simp only [if_pos hstop]
          exact .cons hab .nil
        · simp only [if_neg hstop]
          exact .cons hab (ih _ _)
    | none =>
      simp only [hk]
      by_cases hstop : best ≤ n + 1
      · simp only [if_pos hstop]
        exact .cons hab .nil
      · simp only [if_neg hstop]
        exact .cons hab (ih _ _)

/-- C9. The selection engine never reads packet_loss: for every two
statistics lists that agree pointwise on every field except packet_loss, the
output of best_peers is identical for every target count and cap, because
filtering tests only the error field and ranking compares only rtt_avg. -/
theorem selection_ignores_packet_loss (l1 l2 : List PeerStatistic)
    (best maxC : Int) (h : List.Forall₂ eqExceptLoss l1 l2) :
    best_peers l1 best maxC = best_peers l2 best maxC := by
  unfold best_peers best_peers_of_successful
  have hf := forall2_filter_success h
  have hs := forall2_sortStats hf
  by_cases hm : maxC ≤ 0
  · rw [if_pos hm, if_pos hm]
    have hlen : (sortStats (l1.filter ping_success)).length
        = (sortStats (l2.filter ping_success)).length := hs.length_eq
    unfold pySlice
    rw [hlen]
    by_cases hneg : best < 0
    · rw [if_pos hneg, if_pos hneg, List.map_take, List.map_take,
        forall2_map_peer hs]
    · rw [if_neg hneg, if_neg hneg, List.map_take, List.map_take,
        forall2_map_peer hs]
  · rw [if_neg hm, if_neg hm]
    exact forall2_map_peer (forall2_walk maxC best hs (fun _ => none) 0)

/-- C9, witness: a 90 percent loss entry and a 0 percent loss entry with the
same latency figures select identically. -/
theorem selection_ignores_packet_loss_witness :
    best_peers
        [{ peer := { address := "z", url := "", world_part := "", country := "q" },
           packet_loss := 90, rtt_avg := 1 }] 1 0
      = best_peers
        [{ peer := { address := "z", url := "", world_part := "", country := "q" },
           packet_loss := 0, rtt_avg := 1 }] 1 0 :=
  selection_ignores_packet_loss
    [{ peer := { address := "z", url := "", world_part := "", country := "q" },
       packet_loss := 90, rtt_avg := 1 }]
    [{ peer := { address := "z", url := "", world_part := "", country := "q" },
       packet_loss := 0, rtt_avg := 1 }]
    1 0
    (List.Forall₂.cons ⟨rfl, rfl, rfl, rfl, rfl, rfl⟩ List.Forall₂.nil)

theorem searchWith_first {β : Type} (f : List Char → Option β) :
    ∀ (txt : List Char) (k : Nat) (g : β),
      (∀ i, i < k → f (txt.drop i) = none) →
      f (txt.drop k) = some g →
      searchWith f txt = some g := by
  intro txt
  induction txt with
  | nil =>
    intro k g hnone hsome
    simp only [List.drop_nil] at hsome
    simpa [searchWith] using hsome
  | cons c cs ih =>
    intro k g hnone hsome
    cases k with
    | zero =>
      simp only [List.drop_zero] at hsome
      simp [searchWith, hsome]
    | succ k2 =>
      have h0 : f (c :: cs) = none := by
        simpa using hnone 0 (Nat.succ_pos _)
      simp only [searchWith, h0]
      exact ih k2 g
        (fun i hi => by simpa [List.drop_succ_cons] using hnone (i + 1) (by omega))
        (by simpa [List.drop_succ_cons] using hsome)

theorem takeWhile_append_all {p : Char → Bool} :
    ∀ (a rest : List Char), (∀ x ∈ a, p x = true) →
      (∀ y ys, rest = y :: ys → p y = false) →
      (a ++ rest).takeWhile p = a ∧ (a ++ rest).dropWhile p = rest := by
  intro a
  induction a with
  | nil =>
    intro rest ha hr
    cases rest with
    | nil => exact ⟨rfl, rfl⟩
    | cons y ys =>
      have hy := hr y ys rfl
      constructor
      · simp [List.takeWhile_cons, hy]
      · simp [List.dropWhile_cons, hy]
  | cons x xs ih =>
    intro rest ha hr
    have hx : p x = true := ha x (by simp)
    obtain ⟨h1, h2⟩ := ih rest (fun z hz => ha z (by simp [hz])) hr
    constructor
    · simp [List.takeWhile_cons, hx, h1]
    · simp [List.dropWhile_cons, hx, h2]

theorem grpNum_exact (g rest : List Char) (hg : goodNum g = true)
    (hr : ∀ y ys, rest = y :: ys → isDigitDot y = false) :
    grpNum (g ++ rest) = some (g, rest) := by
  cases g with
  | nil => simp [goodNum] at hg
  | cons c cs =>
    simp only [goodNum, Bool.and_eq_true, decide_eq_true_eq] at hg
    obtain ⟨⟨⟨hcd, hcs⟩, hall⟩, hcount⟩ := hg
    have hallm : ∀ x ∈ (c :: cs), isDigitDot x = true := by
      intro x hx
      exact List.all_eq_true.mp hall x hx
    obtain ⟨ht, hd⟩ := takeWhile_append_all (c :: cs) rest hallm hr
    unfold grpNum
    rw [ht, hd]
    simp [hcd, hcs]

theorem matchRttAt_canonical (a b c d tail : List Char)
    (ha : goodNum a = true) (hb : goodNum b = true) (hc : goodNum c = true)
    (hd : goodNum d = true) :
    matchRttAt ("rtt min/avg/max/mdev = ".data
        ++ (a ++ ('/' :: (b ++ ('/' :: (c ++ ('/' :: (d ++ (' ' :: 'm' :: 's' :: tail)))))))))
      = some (a, b, c, d) := by
  have hslash : ∀ (y : Char) (ys t : List Char), ('/' : Char) :: t = y :: ys → isDigitDot y = false := by
    intro y ys t h
    cases h
    decide
  have hspace : ∀ (y : Char) (ys t : List Char), (' ' : Char) :: t = y :: ys → isDigitDot y = false := by
    intro y ys t h
    cases h
    decide
  have e1 : dropLit "rtt min/avg/max/mdev = ".data
      ("rtt min/avg/max/mdev = ".data
        ++ (a ++ ('/' :: (b ++ ('/' :: (c ++ ('/' :: (d ++ (' ' :: 'm' :: 's' :: tail)))))))))
      = some (a ++ ('/' :: (b ++ ('/' :: (c ++ ('/' :: (d ++ (' ' :: 'm' :: 's' :: tail)))))))) := rfl
  have e2 : grpNum (a ++ ('/' :: (b ++ ('/' :: (c ++ ('/' :: (d ++ (' ' :: 'm' :: 's' :: tail))))))))
      = some (a, '/' :: (b ++ ('/' :: (c ++ ('/' :: (d ++ (' ' :: 'm' :: 's' :: tail))))))) :=
    grpNum_exact a _ ha (fun y ys h => hslash y ys _ h)
  have e3 : grpNum (b ++ ('/' :: (c ++ ('/' :: (d ++ (' ' :: 'm' :: 's' :: tail))))))
      = some (b, '/' :: (c ++ ('/' :: (d ++ (' ' :: 'm' :: 's' :: tail))))) :=
    grpNum_exact b _ hb (fun y ys h => hslash y ys _ h)
  have e4 : grpNum (c ++ ('/' :: (d ++ (' ' :: 'm' :: 's' :: tail))))
      = some (c, '/' :: (d ++ (' ' :: 'm' :: 's' :: tail))) :=
    grpNum_exact c _ hc (fun y ys h => hslash y ys _ h)
  have e5 : grpNum (d ++ (' ' :: 'm' :: 's' :: tail))
      = some (d, ' ' :: 'm' :: 's' :: tail) :=
    grpNum_exact d _ hd (fun y ys h => hspace y ys _ h)
  have e6 : (' ' :: 'm' :: 's' :: tail).dropWhile Char.isWhitespace = 'm' :: 's' :: tail := rfl
  have e7 : dropLit "ms".data ('m' :: 's' :: tail) = some tail := rfl
  have e8 : ∀ (t : List Char), dropChar '/' ('/' :: t) = some t := by
    intro t
    simp [dropChar]
  simp only [matchRttAt, e1, Option.some_bind, e2, e3, e4, e5, e6, e7, e8]

theorem matchLossAt_canonical (lossd rest2 : List Char) (hl : allDigits lossd = true) :
    matchLossAt (lossd ++ ("% packet loss".data ++ rest2)) = some lossd := by
  cases lossd with
  | nil => simp [allDigits] at hl
  | cons c cs =>
    simp only [allDigits, Bool.and_eq_true] at hl
    have hallm : ∀ x ∈ (c :: cs), Char.isDigit x = true := by
      intro x hx
      exact List.all_eq_true.mp hl.2 x hx
    have hr : ∀ y ys, ("% packet loss".data ++ rest2) = y :: ys → Char.isDigit y = false := by
      intro y ys h
      have : ('%' : Char) :: (" packet loss".data ++ rest2) = y :: ys := h
      cases this
      decide
    obtain ⟨ht, hd⟩ := takeWhile_append_all (c :: cs) ("% packet loss".data ++ rest2) hallm hr
    unfold matchLossAt
    rw [ht, hd]
    rfl

theorem pyFloat?_of_goodNum (l : List Char) (h : goodNum l = true) :
    pyFloat? l = some (decimalValue l) := by
  cases l with
  | nil => simp [goodNum] at h
  | cons c cs =>
    simp only [goodNum, Bool.and_eq_true, decide_eq_true_eq] at h
    unfold pyFloat?
    rw [if_pos h.2]

/-- C1, amended. For every probe output text that contains the canonical rtt
summary line with numbers a, b, c, d (at the first position where the rtt
pattern matches) and the packet-loss fragment with digit group lossd (at the
first position where the loss pattern matches), in either order and with
arbitrary surrounding text - real ping output places the loss fragment before
the rtt line - where each number is a digit followed by at least one more
digit-or-dot character with at most one dot (the original claim also admits
one-character numbers such as 5, which the pattern of the code rejects),
parse_ping_output assigns exactly the four decimal values and the loss count,
and leaves the error field unchanged (0 on the fresh record the scheduler
passes). -/
theorem parse_canonical_summary (st : PeerStatistic)
    (txt preR a b c d tailR preL lossd tailL : List Char)
    (ha : goodNum a = true) (hb : goodNum b = true) (hc : goodNum c = true)
    (hd : goodNum d = true) (hl : allDigits lossd = true)
    (hR : txt = preR ++ rttFragment a b c d tailR)
    (hL : txt = preL ++ lossFragment lossd tailL)
    (hnoRtt : ∀ i, i < preR.length → matchRttAt (txt.drop i) = none)
    (hnoLoss : ∀ i, i < preL.length → matchLossAt (txt.drop i) = none) :
    parse_ping_output st ⟨txt⟩
      = Except.ok { st with rtt_min := decimalValue a, rtt_avg := decimalValue b, rtt_max := decimalValue c, rtt_mdev := decimalValue d, packet_loss := (natOfDigits lossd : Int) } := by
  have hsr : searchRtt txt = some (a, b, c, d) := by
    apply searchWith_first _ _ preR.length _ hnoRtt
    rw [hR, List.drop_left]
    exact matchRttAt_canonical a b c d _ ha hb hc hd
  have hsl : searchLoss txt = some lossd := by
    apply searchWith_first _ _ preL.length _ hnoLoss
    rw [hL, List.drop_left]
    exact matchLossAt_canonical lossd tailL hl
  have hdata : (String.mk txt).data = txt := rfl
  simp only [parse_ping_output, hdata, hsr, hsl,
    pyFloat?_of_goodNum a ha, pyFloat?_of_goodNum b hb,
    pyFloat?_of_goodNum c hc, pyFloat?_of_goodNum d hd]

/-- C1, amended, witness: a realistic probe output in the order real ping
emits, the loss fragment BEFORE the rtt summary line, with numbers 0.1, 0.2,
0.3, 0.4 and loss 0. -/
theorem parse_canonical_summary_witness :
    parse_ping_output blankStat
        ⟨"PING x\n4 packets transmitted, 4 received, 0% packet loss, time 3ms\nrtt min/avg/max/mdev = 0.1/0.2/0.3/0.4 ms\n".data⟩
      = Except.ok { blankStat with rtt_min := decimalValue "0.1".data, rtt_avg := decimalValue "0.2".data, rtt_max := decimalValue "0.3".data, rtt_mdev := decimalValue "0.4".data, packet_loss := (natOfDigits "0".data : Int) } :=
  parse_canonical_summary blankStat
    "PING x\n4 packets transmitted, 4 received, 0% packet loss, time 3ms\nrtt min/avg/max/mdev = 0.1/0.2/0.3/0.4 ms\n".data
    "PING x\n4 packets transmitted, 4 received, 0% packet loss, time 3ms\n".data
    "0.1".data "0.2".data "0.3".data "0.4".data "\n".data
    "PING x\n4 packets transmitted, 4 received, ".data
    "0".data
    ", time 3ms\nrtt min/avg/max/mdev = 0.1/0.2/0.3/0.4 ms\n".data
    (by decide) (by decide) (by decide) (by decide) (by decide)
    (by decide) (by decide)
    (by
      have h : ∀ i ∈ List.range "PING x\n4 packets transmitted, 4 received, 0% packet loss, time 3ms\n".data.length,
          matchRttAt ("PING x\n4 packets transmitted, 4 received, 0% packet loss, time 3ms\nrtt min/avg/max/mdev = 0.1/0.2/0.3/0.4 ms\n".data.drop i) = none := by decide
      intro i hi
      exact h i (List.mem_range.mpr hi))
    (by
      have h : ∀ i ∈ List.range "PING x\n4 packets transmitted, 4 received, ".data.length,
          matchLossAt ("PING x\n4 packets transmitted, 4 received, 0% packet loss, time 3ms\nrtt min/avg/max/mdev = 0.1/0.2/0.3/0.4 ms\n".data.drop i) = none := by decide
      intro i hi
      exact h i (List.mem_range.mpr hi))

/-- C1, counterexample. The claim quantifies over all non-negative decimal
numbers A, B, C, D in the canonical summary line, but the pattern of
parse_ping_output demands at least two characters per number, so the
canonical line with the decimal numbers 5/5/5/5 is not recognised: the call
ends in the parse-failure branch with error -1 and rtt_min left at 0 instead
of the claimed rtt fields 5 and error 0. -/
theorem parse_rejects_single_digit_rtt :
    parse_ping_output blankStat
        "PING x\nrtt min/avg/max/mdev = 5/5/5/5 ms\n0% packet loss\n"
      = Except.ok { blankStat with error := -1 } := by
  decide

/-- C6, code bug. The probe output below contains the fragment 1.2.3, which is
not a decimal number, so by the claim parsing must end as a recorded failure
without an exception; the code instead captures 1.2.3 with its pattern (which
admits any mix of digits and dots) and feeds it to float, which raises an
uncaught ValueError, modelled as Except.error. -/
theorem parse_raises_on_malformed_number :
    parse_ping_output blankStat
        "rtt min/avg/max/mdev = 1.2.3/2.0/3.0/4.0 ms\n5% packet loss\n"
      = Except.error () := by
  decide

/-- C4, code bug. With target count 0, a per-country cap of 1 and one
successful statistic, the claim requires the empty selection; the code runs
its break test only after appending, so best_peers returns that one peer. -/
theorem best_peers_n_zero_returns_one_peer :
    best_peers [{ peer := { address := "h1", url := "u1", world_part := "eu", country := "de" } }] 0 1
      = [{ address := "h1", url := "u1", world_part := "eu", country := "de" }] := by
  decide

/-- C3, counterexample. The claim includes N = 0, promising output size
min(0, not-skipped successes) = 0; with a cap of 1 and one successful
statistic the walk of best_peers selects one peer before testing the stop
condition, so the output has length 1. -/
theorem best_peers_cap_n_zero_counterexample :
    (best_peers [{ peer := { address := "h2", url := "u2", world_part := "as", country := "jp" } }] 0 1).length
      = 1 := by
  decide

/-- C5, counterexample. The claim says a launch always takes the earliest
not-yet-launched candidate; with two candidates and concurrency 1 the first
launch of the loop takes index 1, the last candidate on the waiting list,
because Python list.pop removes the last element. -/
theorem scheduler_first_launch_counterexample :
    (launchStep { parallel := 1 }
        (initSched [{ address := "p0", url := "", world_part := "", country := "" },
                    { address := "p1", url := "", world_part := "", country := "" }])).processing
      = [1] := by
  decide

/-- C8, counterexample. A configuration with concurrency 0, probe count 0 and
best count -1 (all out of the ranges the claim says are rejected) passes
validate_settings, here with force set so the file check is skipped; no range
validation exists in the code. -/
theorem validate_settings_accepts_invalid_ranges :
    validate_settings
      { force := true, quiet := false, verbose := false, parallel := 0, pings := 0,
        best := -1, max_from_country := 0, ping_interval := 0,
        rewrite_config_peers := false, yggdrasil_peers_json := "",
        yggdrasil_conf := "yggdrasil.conf", repo_url := "" }
      (fun _ => false) = true := by
  decide

/-- C8, amended. validate_settings performs no range validation at all: it
accepts a configuration exactly when no configuration file is named, or force
is set, or the named file is writable; the scalar settings parallel, pings,
best and max_from_country do not occur in the outcome. -/
theorem validate_settings_characterization (args : ArgsModel) (writable : String → Bool) :
    validate_settings args writable = true ↔
      (args.yggdrasil_conf = "" ∨ args.force = true ∨ writable args.yggdrasil_conf = true) := by
  unfold validate_settings
  split
  · rename_i hcond
    split
    · rename_i hw
      simp only [Bool.false_eq_true, false_iff]
      push_neg
      refine ⟨hcond.1, ?_, ?_⟩
      · simp [hcond.2]
      · simp [hw]
    · rename_i hw
      simp only [true_iff]
      right; right
      simpa using hw
  · rename_i hcond
    simp only [true_iff]
    by_cases hconf : args.yggdrasil_conf = ""
    · exact Or.inl hconf
    · right; left
      rcases Bool.eq_false_or_eq_true args.force with hf | hf
      · exact hf
      · exact absurd ⟨hconf, hf⟩ hcond

end YFPP
